import Mathlib

/-!
Verification of the reconciliation & matching engine of the company_rating
repository: name normalization (`poc/match_company_names.py`), similarity
scoring via difflib's `SequenceMatcher.ratio`, the matcher, company/job
deduplication, blacklist filtering, the left join and the rating threshold
of `JobOrchestrator.get_jobs_dataframe`, and the lazy cache accessors
(`application/services/job_orchestrator.py`).

Strings are modelled as `List Char`; Python `float` scores and ratings are
modelled as `ℚ` (all scores produced by `ratio` are small exact rationals
`2*M/T`, which IEEE doubles represent by one correctly-rounded division, so
equality and order coincide with the rational ones on these values).
-/

namespace CompanyRating

/-- Strings as character lists (Python `str`). -/
abbrev Str := List Char

/-- Whitespace as recognised by Python `str.strip` / `str.split` (ASCII part). -/
def pyIsSpace (c : Char) : Bool :=
  c = ' ' || c = '\t' || c = '\n' || c = '\r' || c = '\x0b' || c = '\x0c'

/-- Python `str.lower`, restricted to ASCII letters (the only case-carrying
characters appearing in the engine's suffix table and keys). -/
def pyToLower (c : Char) : Char :=
  if 65 ≤ c.toNat ∧ c.toNat ≤ 90 then Char.ofNat (c.toNat + 32) else c

/-- `s.lower()` character-wise. -/
def lowerStr (s : Str) : Str := s.map pyToLower

/-- `s.lstrip()`. -/
def lstrip (s : Str) : Str := s.dropWhile pyIsSpace

/-- `s.rstrip()`. -/
def rstrip (s : Str) : Str := (s.reverse.dropWhile pyIsSpace).reverse

/-- `s.strip()`. -/
def pyStrip (s : Str) : Str := rstrip (lstrip s)

/-- `s.endswith(suf)`: the final characters of `s` equal `suf`. -/
def endsWith (s suf : Str) : Bool := decide (s.drop (s.length - suf.length) = suf)

/-- The fixed legal-suffix table of `normalize_name` (source order). -/
def suffixList : List Str :=
  [" gmbh".toList, " gmbh & co. kg".toList, " gmbh & co.kg".toList,
   " gmbh & co kg".toList, " ag".toList, " se".toList, " kg".toList,
   " ohg".toList, " gbr".toList, " ug".toList, " inc".toList, " inc.".toList,
   " corp".toList, " corp.".toList, " ltd".toList, " ltd.".toList,
   " llc".toList, " llc.".toList, " co.".toList, " co".toList,
   " group".toList]

/-- One iteration of the suffix loop:
`if normalized.endswith(suffix): normalized = normalized[:-len(suffix)].strip()`. -/
def stripOneSuffix (s suf : Str) : Str :=
  if endsWith s suf then pyStrip (s.take (s.length - suf.length)) else s

/-- The whole `for suffix in suffixes:` loop of `normalize_name`. -/
def stripSuffixes (s : Str) : Str := suffixList.foldl stripOneSuffix s

/-- Helper for Python `s.split()`: accumulates the current word (reversed). -/
def pySplitAux : Str → Str → List Str
  | [], acc => if acc.isEmpty then [] else [acc.reverse]
  | c :: cs, acc =>
      if pyIsSpace c then
        if acc.isEmpty then pySplitAux cs [] else acc.reverse :: pySplitAux cs []
      else pySplitAux cs (c :: acc)

/-- Python `s.split()` with no argument: split on whitespace runs, no empty words. -/
def pySplit (s : Str) : List Str := pySplitAux s []

/-- Python `" ".join(ws)`. -/
def joinSpace : List Str → Str
  | [] => []
  | [w] => w
  | w :: w2 :: ws => w ++ ' ' :: joinSpace (w2 :: ws)

/-- `" ".join(normalized.split())`: collapse whitespace runs to single spaces. -/
def collapseWs (s : Str) : Str := joinSpace (pySplit s)

/-- `normalize_name` from `poc/match_company_names.py`: lowercase and strip,
run the suffix loop, collapse whitespace. -/
def normalize_name (name : Str) : Str :=
  collapseWs (stripSuffixes (pyStrip (lowerStr name)))

/-! ### difflib.SequenceMatcher (CPython), specialised to `isjunk=None` and
inputs shorter than 200 characters (no autojunk, hence the junk-extension
loops of `find_longest_match` are no-ops and are omitted). -/

/-- Ascending positions of `c` in `b` (the `b2j` table of SequenceMatcher). -/
def indicesOf (b : Str) (c : Char) : List Nat :=
  ((List.range b.length).filter (fun j => decide (b.getD j ' ' = c))).filter
    (fun j => decide (j < b.length))

/-- Result triple of `find_longest_match`. -/
structure FLM where
  besti : Nat
  bestj : Nat
  bestsize : Nat
deriving DecidableEq, Repr

/-- Inner loop over `j in b2j[a[i]]` (already restricted to `[blo, bhi)`):
`k = newj2len[j] = j2len.get(j-1, 0) + 1`, update best on strict improvement. -/
def flmInner (j2len : Nat → Nat) (i : Nat) :
    List Nat → (Nat → Nat) → FLM → ((Nat → Nat) × FLM)
  | [], newj2len, st => (newj2len, st)
  | j :: js, newj2len, st =>
      let k := (if j = 0 then 0 else j2len (j - 1)) + 1
      let newj2len2 := fun j2 => if j2 = j then k else newj2len j2
      let st2 := if st.bestsize < k then FLM.mk (i + 1 - k) (j + 1 - k) k else st
      flmInner j2len i js newj2len2 st2

/-- Outer loop over `i in range(alo, ahi)` of `find_longest_match`. -/
def flmOuter (a b : Str) (blo bhi : Nat) :
    List Nat → (Nat → Nat) → FLM → FLM
  | [], _, st => st
  | i :: is2, j2len, st =>
      let js := (indicesOf b (a.getD i ' ')).filter
        (fun j => decide (blo ≤ j) && decide (j < bhi))
      let r := flmInner j2len i js (fun _ => 0) st
      flmOuter a b blo bhi is2 r.1 r.2

/-- `SequenceMatcher.find_longest_match(alo, ahi, blo, bhi)` with no junk. -/
def find_longest_match (a b : Str) (alo ahi blo bhi : Nat) : FLM :=
  flmOuter a b blo bhi (List.range' alo (ahi - alo)) (fun _ => 0) (FLM.mk alo blo 0)

/-- Total size of the matching blocks found by `get_matching_blocks` on the
range `[alo, ahi) × [blo, bhi)` (its sort and adjacent-merge steps do not
change the total). The queue recursion strictly shrinks `ahi - alo`, so fuel
`a.length + 1` is never exhausted at the top-level call. -/
def matchTotal (a b : Str) : Nat → Nat → Nat → Nat → Nat → Nat
  | 0, _, _, _, _ => 0
  | fuel + 1, alo, ahi, blo, bhi =>
      let m := find_longest_match a b alo ahi blo bhi
      if m.bestsize = 0 then 0
      else
        m.bestsize
          + (if alo < m.besti ∧ blo < m.bestj then
              matchTotal a b fuel alo m.besti blo m.bestj else 0)
          + (if m.besti + m.bestsize < ahi ∧ m.bestj + m.bestsize < bhi then
              matchTotal a b fuel (m.besti + m.bestsize) ahi
                (m.bestj + m.bestsize) bhi else 0)

/-- `SequenceMatcher(None, a, b).ratio() = 2.0 * matches / (len(a) + len(b))`;
`_calculate_ratio` returns `1.0` when both sequences are empty. -/
def ratio (a b : Str) : ℚ :=
  let total := a.length + b.length
  if total = 0 then 1
  else 2 * (matchTotal a b (a.length + 1) 0 a.length 0 b.length : ℚ) / (total : ℚ)

/-- `similarity_score` from `poc/match_company_names.py`: normalize both names,
then the SequenceMatcher ratio. -/
def similarity_score (name1 name2 : Str) : ℚ :=
  ratio (normalize_name name1) (normalize_name name2)

/-! ### Data model (`domain/value_objects/company.py`, `domain/entities/job.py`,
`models/job_dict.py`) -/

/-- The `Company` dataclass. Field defaults are the dataclass defaults:
in particular `kununu_rating: float = 0` (a plain number, not an optional). -/
structure Company where
  name : Str
  location : Str := []
  kununu_rating : ℚ := 0
  glassdoor_rating : ℚ := 0
  alternative_names : List Str := []
  url : Str := []
deriving DecidableEq, Repr

/-- The `Job` entity (same fields as the `JobDict` rows built in
`get_jobs_dataframe`). -/
structure Job where
  job_id : Str
  url : Str
  company_name : Str
  working_model : Str
  salary : Int
  title : Str
deriving DecidableEq, Repr

/-- One row of the merged dataframe of `get_jobs_dataframe`: the job columns
plus the company columns, which are all-NaN exactly when the left join found
no company (`company = none`). -/
structure ConsolidatedRow where
  job : Job
  company : Option Company
deriving DecidableEq, Repr

/-- The `kununu_rating` column of a merged row: NaN (`none`) iff unmatched. -/
def rowRating (r : ConsolidatedRow) : Option ℚ := r.company.map Company.kununu_rating

/-! ### Matcher (`find_matches` in `poc/match_company_names.py`) -/

/-- Stable descending insertion by score: `x` goes in front of the first
element whose score is not above `x`'s. Together with `sortDesc` below this is
the unique stable descending permutation, i.e. the documented behaviour of
Python `list.sort(key=lambda x: x[1], reverse=True)`. -/
def insertDesc (x : Str × ℚ) : List (Str × ℚ) → List (Str × ℚ)
  | [] => [x]
  | y :: ys => if y.2 ≤ x.2 then x :: y :: ys else y :: insertDesc x ys

/-- Stable sort, descending by score (`matches.sort(key=..., reverse=True)`). -/
def sortDesc : List (Str × ℚ) → List (Str × ℚ)
  | [] => []
  | x :: xs => insertDesc x (sortDesc xs)

/-- `find_matches` from `poc/match_company_names.py`: score every candidate,
keep those with `score >= threshold` in candidate order, sort descending by
score (stable), truncate to `top_n`. -/
def find_matches (unsorted_name : Str) (existing_companies : List Company)
    (top_n : Nat) (threshold : ℚ) : List (Str × ℚ) :=
  let scored := (existing_companies.map
      (fun c => (c.name, similarity_score unsorted_name c.name))).filter
    (fun x => decide (threshold ≤ x.2))
  (sortDesc scored).take top_n

/-! ### JobOrchestrator (`application/services/job_orchestrator.py`) -/

/-- The seen-set loop shared by `deduplicate_companies` and
`deduplicate_jobs`: keep a record iff its key was not seen before. -/
def dedupByKeyAux (key : α → Str) (seen : List Str) : List α → List α
  | [] => []
  | x :: xs =>
      if key x ∈ seen then dedupByKeyAux key seen xs
      else x :: dedupByKeyAux key (key x :: seen) xs

/-- `JobOrchestrator.deduplicate_companies`: the seen-set is keyed by
`company.name.lower()`. -/
def deduplicate_companies (companies : List Company) : List Company :=
  dedupByKeyAux (fun c => lowerStr c.name) [] companies

/-- `JobOrchestrator.deduplicate_jobs`: keyed by `job.job_id` verbatim. -/
def deduplicate_jobs (jobs : List Job) : List Job :=
  dedupByKeyAux (fun j => j.job_id) [] jobs

/-- One blacklist pass, the shape of both `filter_blacklisted_jobs` and the
two `if blacklist: merged = merged[~merged[col].isin(blacklist)]` blocks of
`get_jobs_dataframe`: an empty blacklist skips the filter. -/
def blacklistPass (key : α → Str) (blacklist : List Str) (xs : List α) : List α :=
  if blacklist.isEmpty then xs
  else xs.filter (fun x => decide (key x ∉ blacklist))

/-- Rows `pd.merge(..., left_on="company_name", right_on="name", how="left")`
produces for one job: one row per company whose `name` equals the job's
`company_name` verbatim, or a single NaN-filled row when none matches. -/
def joinRow (companies : List Company) (j : Job) : List ConsolidatedRow :=
  let ms := companies.filter (fun c => decide (c.name = j.company_name))
  if ms.isEmpty then [ConsolidatedRow.mk j none]
  else ms.map (fun c => ConsolidatedRow.mk j (some c))

/-- The whole left merge: left row order preserved, right matches in order. -/
def mergeLeft (jobs : List Job) (companies : List Company) : List ConsolidatedRow :=
  match jobs with
  | [] => []
  | j :: js => joinRow companies j ++ mergeLeft js companies

/-- The `if min_rating > 0.0:` stage of `get_jobs_dataframe`: keep a row iff
`kununu_rating >= min_rating` or `kununu_rating` is NaN. -/
def ratingThreshold (min_rating : ℚ) (rows : List ConsolidatedRow) :
    List ConsolidatedRow :=
  if 0 < min_rating then
    rows.filter (fun r =>
      match rowRating r with
      | none => true
      | some q => decide (min_rating ≤ q))
  else rows

/-- The column labels `companies_df` actually has: the keys of
`asdict(Company)` for the `Company` dataclass (when the company list is
empty the frame has no columns at all, a strict subset of these). -/
def companyColumns : List String :=
  ["name", "location", "kununu_rating", "glassdoor_rating",
   "alternative_names", "url"]

/-- The labels `get_jobs_dataframe` selects with `companies_df[[...]]` before
merging. -/
def selectedCompanyColumns : List String :=
  ["name", "kununu_rating", "kununu_review_count", "glassdoor_rating",
   "glassdoor_review_count", "location"]

/-- `JobOrchestrator.get_jobs_dataframe`: deduplicate jobs and return an empty
frame when none remain; otherwise select the rating columns from
`companies_df` — which raises `KeyError` when a requested label is missing
(pandas >= 1.0), and `kununu_review_count` / `glassdoor_review_count` are
never present since `asdict(Company)` cannot produce them — and only on
success left-merge on raw `company_name == name`, apply the company-name then
the job-id blacklist pass, then the rating threshold. -/
def get_jobs_dataframe (jobs : List Job) (companies : List Company)
    (company_blacklist job_blacklist : List Str) (min_rating : ℚ)
    (apply_blacklist : Bool) : Except String (List ConsolidatedRow) :=
  let djobs := deduplicate_jobs jobs
  if djobs.isEmpty then .ok []
  else if selectedCompanyColumns.all (fun col => decide (col ∈ companyColumns)) then
    let merged := mergeLeft djobs companies
    let merged2 :=
      if apply_blacklist then
        blacklistPass (fun r => r.job.job_id) job_blacklist
          (blacklistPass (fun r => r.job.company_name) company_blacklist merged)
      else merged
    .ok (ratingThreshold min_rating merged2)
  else
    .error "KeyError: ['kununu_review_count', 'glassdoor_review_count'] not in index"

/-- Cache state behind the `jobs()` / `companies()` accessors: the cached list
(class attribute initialised to `[]`) and how many times the query port's
`get()` has been invoked. -/
structure LazyCache (α : Type) where
  cache : List α
  calls : Nat
deriving DecidableEq, Repr

/-- The accessor body `if not self._companies: self._companies =
self._company_query_port.get(); return self._companies` (identically
`jobs()`). The port is indexed by its invocation count so that re-triggered
loads are observable. -/
def lazyAccess (port : Nat → List α) (s : LazyCache α) : List α × LazyCache α :=
  if s.cache.isEmpty then (port s.calls, LazyCache.mk (port s.calls) (s.calls + 1))
  else (s.cache, s)

/-- `JobOrchestrator.companies`. -/
def companies (port : Nat → List Company) (s : LazyCache Company) :
    List Company × LazyCache Company := lazyAccess port s

/-- `JobOrchestrator.jobs`. -/
def jobs (port : Nat → List Job) (s : LazyCache Job) :
    List Job × LazyCache Job := lazyAccess port s

/-- `n` successive accessor calls starting from state `s`. -/
def lazyIter (port : Nat → List α) (s : LazyCache α) : Nat → LazyCache α
  | 0 => s
  | n + 1 => (lazyAccess port (lazyIter port s n)).2

/-! ### Spec-side definitions (for refinement claims) -/

/-- Modelled from the spec: the §4.4 deduplication contract in its own words —
retain the first occurrence of each key, drop every later record with the same
key, preserve order. Stated generically in the key; the spec's company key is
`normalize(record.name)`. -/
def keepFirstByKey (key : α → Str) : List α → List α
  | [] => []
  | x :: xs =>
      x :: keepFirstByKey key (xs.filter (fun y => decide (key y ≠ key x)))
termination_by l => l.length
decreasing_by
  simp only [List.length_cons]
  exact Nat.lt_succ_of_le (List.length_filter_le _ _)

/-! ### Concrete sample records used in counterexamples and witnesses -/

/-- The job of the spec's end-to-end example: `{id:"1", company:"Acme GmbH"}`. -/
def job1 : Job := Job.mk "1".toList [] "Acme GmbH".toList [] 0 []

/-- A job posted under the exact company name `X`. -/
def jobX : Job := Job.mk "7".toList [] "X".toList [] 0 []

/-- `{name:"ACME", rating:4.2}` from the spec's end-to-end example. -/
def companyACME : Company := { name := "ACME".toList, kununu_rating := 21 / 5 }

/-- `{name:"Acme", rating:4.2}` from the spec's end-to-end example. -/
def companyAcme : Company := { name := "Acme".toList, kununu_rating := 21 / 5 }

/-- A company whose name normalizes like `companyAcme`'s but differs raw. -/
def companyAcmeGmbH : Company := { name := "Acme GmbH".toList }

/-- Two companies sharing the display name `X`, differing in `location`. -/
def companyXa : Company := { name := "X".toList, location := "a".toList }

/-- Second company named `X`. -/
def companyXb : Company := { name := "X".toList, location := "b".toList }

/-- `{"Deutsche Bank"}` from the spec's matcher example. -/
def companyDB : Company := { name := "Deutsche Bank".toList }

/-- `{"Commerzbank"}` from the spec's matcher example. -/
def companyCB : Company := { name := "Commerzbank".toList }

end CompanyRating

namespace CompanyRating

/-! ## Helper lemmas -/

theorem blacklistPass_filter (key : α → Str) (bl : List Str) (xs : List α) :
    blacklistPass key bl xs = xs.filter (fun x => decide (key x ∉ bl)) := by
  unfold blacklistPass
  by_cases h : bl.isEmpty
  · rw [if_pos h, List.isEmpty_iff.mp h]
    simp
  · rw [if_neg h]

theorem dedupByKeyAux_eq_keepFirst (key : α → Str) (seen : List Str)
    (xs : List α) :
    dedupByKeyAux key seen xs
      = keepFirstByKey key (xs.filter (fun x => decide (key x ∉ seen))) := by
  induction xs generalizing seen with
  | nil => simp [dedupByKeyAux, keepFirstByKey]
  | cons x xs ih =>
    by_cases h : key x ∈ seen
    · rw [dedupByKeyAux, if_pos h, List.filter_cons_of_neg (by simp [h]), ih]
    · rw [dedupByKeyAux, if_neg h, List.filter_cons_of_pos (by simp [h]),
        keepFirstByKey, ih (key x :: seen), List.filter_filter]
      congr 1
      congr 1
      apply List.filter_congr
      intro y _
      by_cases hy : key y = key x <;> by_cases hs : key y ∈ seen <;>
        simp [hy, hs]

theorem mem_joinRow (cs : List Company) (j j2 : Job) (c : Company) :
    ConsolidatedRow.mk j (some c) ∈ joinRow cs j2
      ↔ j = j2 ∧ c ∈ cs ∧ c.name = j2.company_name := by
  unfold joinRow
  by_cases h : (cs.filter (fun c => decide (c.name = j2.company_name))).isEmpty
  · rw [if_pos h]
    have hnil := List.isEmpty_iff.mp h
    simp only [List.mem_singleton, ConsolidatedRow.mk.injEq]
    constructor
    · rintro ⟨-, hc⟩
      exact absurd hc (by simp)
    · rintro ⟨-, hc, hname⟩
      have : c ∈ cs.filter (fun c => decide (c.name = j2.company_name)) := by
        simp [List.mem_filter, hc, hname]
      rw [hnil] at this
      exact absurd this (by simp)
  · rw [if_neg h]
    simp only [List.mem_map, ConsolidatedRow.mk.injEq, List.mem_filter,
      decide_eq_true_eq]
    constructor
    · rintro ⟨c2, ⟨hc2, hname⟩, hj, hc⟩
      cases hc
      exact ⟨hj.symm, hc2, hname⟩
    · rintro ⟨hj, hc, hname⟩
      exact ⟨c, ⟨hc, hname⟩, hj.symm, rfl⟩

theorem length_filter_name_le_one (cs : List Company) (x : Str)
    (hnd : (cs.map Company.name).Nodup) :
    (cs.filter (fun c => decide (c.name = x))).length ≤ 1 := by
  induction cs with
  | nil => simp
  | cons c cs ih =>
    rw [List.map_cons, List.nodup_cons] at hnd
    by_cases h : c.name = x
    · rw [List.filter_cons_of_pos (by simp [h])]
      have : cs.filter (fun c => decide (c.name = x)) = [] := by
        rw [List.filter_eq_nil_iff]
        intro d hd
        simp only [decide_eq_true_eq]
        intro hdx
        exact hnd.1 (by rw [h, ← hdx]; exact List.mem_map_of_mem _ hd)
      simp [this]
    · rw [List.filter_cons_of_neg (by simp [h])]
      exact ih hnd.2

theorem length_joinRow (cs : List Company) (j : Job)
    (hnd : (cs.map Company.name).Nodup) : (joinRow cs j).length = 1 := by
  unfold joinRow
  by_cases h : (cs.filter (fun c => decide (c.name = j.company_name))).isEmpty
  · rw [if_pos h]
    rfl
  · rw [if_neg h, List.length_map]
    have h1 := length_filter_name_le_one cs j.company_name hnd
    have h2 : 0 < (cs.filter (fun c => decide (c.name = j.company_name))).length := by
      rw [List.length_pos]
      intro hnil
      rw [hnil] at h
      exact h rfl
    omega

theorem length_mergeLeft (js : List Job) (cs : List Company)
    (hnd : (cs.map Company.name).Nodup) : (mergeLeft js cs).length = js.length := by
  induction js with
  | nil => rfl
  | cons j js ih =>
    rw [mergeLeft, List.length_append, ih, length_joinRow cs j hnd,
      List.length_cons]
    omega

theorem mem_mergeLeft_unmatched (djs : List Job) (cs : List Company) (j : Job)
    (hj : j ∈ djs)
    (hfil : cs.filter (fun c => decide (c.name = j.company_name)) = []) :
    ConsolidatedRow.mk j none ∈ mergeLeft djs cs := by
  induction djs with
  | nil => cases hj
  | cons j2 djs ih =>
    rw [mergeLeft, List.mem_append]
    rcases List.mem_cons.mp hj with rfl | h
    · left
      unfold joinRow
      rw [hfil]
      simp
    · right
      exact ih h

theorem insertDesc_perm (x : Str × ℚ) (l : List (Str × ℚ)) :
    (insertDesc x l).Perm (x :: l) := by
  induction l with
  | nil => exact List.Perm.refl _
  | cons y ys ih =>
    rw [insertDesc]
    by_cases h : y.2 ≤ x.2
    · rw [if_pos h]
    · rw [if_neg h]
      exact (ih.cons y).trans (List.Perm.swap x y ys)

theorem sortDesc_perm (l : List (Str × ℚ)) : (sortDesc l).Perm l := by
  induction l with
  | nil => exact List.Perm.refl _
  | cons x xs ih =>
    rw [sortDesc]
    exact (insertDesc_perm x (sortDesc xs)).trans (ih.cons x)

theorem insertDesc_sorted (x : Str × ℚ) (l : List (Str × ℚ))
    (hl : l.Sorted (fun a b => b.2 ≤ a.2)) :
    (insertDesc x l).Sorted (fun a b => b.2 ≤ a.2) := by
  induction l with
  | nil => simp [insertDesc]
  | cons y ys ih =>
    rw [List.sorted_cons] at hl
    rw [insertDesc]
    by_cases h : y.2 ≤ x.2
    · rw [if_pos h, List.sorted_cons]
      refine ⟨?_, List.sorted_cons.mpr hl⟩
      intro b hb
      rcases List.mem_cons.mp hb with rfl | hb2
      · exact h
      · exact le_trans (hl.1 b hb2) h
    · rw [if_neg h, List.sorted_cons]
      refine ⟨?_, ih hl.2⟩
      intro b hb
      rcases List.mem_cons.mp ((insertDesc_perm x ys).mem_iff.mp hb)
        with rfl | hb3
      · exact le_of_lt (lt_of_not_le h)
      · exact hl.1 b hb3

theorem sortDesc_sorted (l : List (Str × ℚ)) :
    (sortDesc l).Sorted (fun a b => b.2 ≤ a.2) := by
  induction l with
  | nil => simp [sortDesc]
  | cons x xs ih =>
    rw [sortDesc]
    exact insertDesc_sorted x (sortDesc xs) ih

theorem insertDesc_filter_of_eq (x : Str × ℚ) (l : List (Str × ℚ)) (s : ℚ)
    (hx : x.2 = s) :
    (insertDesc x l).filter (fun y => decide (y.2 = s))
      = x :: l.filter (fun y => decide (y.2 = s)) := by
  induction l with
  | nil => simp [insertDesc, hx]
  | cons y ys ih =>
    rw [insertDesc]
    by_cases h : y.2 ≤ x.2
    · rw [if_pos h, List.filter_cons_of_pos (by simp [hx])]
    · rw [if_neg h]
      have hy : ¬ y.2 = s := by
        rw [← hx]
        exact ne_of_gt (lt_of_not_le h)
      rw [List.filter_cons_of_neg (by simp [hy]), ih,
        List.filter_cons_of_neg (by simp [hy])]

theorem insertDesc_filter_of_ne (x : Str × ℚ) (l : List (Str × ℚ)) (s : ℚ)
    (hx : ¬ x.2 = s) :
    (insertDesc x l).filter (fun y => decide (y.2 = s))
      = l.filter (fun y => decide (y.2 = s)) := by
  induction l with
  | nil => simp [insertDesc, hx]
  | cons y ys ih =>
    rw [insertDesc]
    by_cases h : y.2 ≤ x.2
    · rw [if_pos h, List.filter_cons_of_neg (by simp [hx])]
    · rw [if_neg h]
      by_cases hy : y.2 = s
      · rw [List.filter_cons_of_pos (by simp [hy]), ih,
          List.filter_cons_of_pos (by simp [hy])]
      · rw [List.filter_cons_of_neg (by simp [hy]), ih,
          List.filter_cons_of_neg (by simp [hy])]

theorem sortDesc_stable (l : List (Str × ℚ)) (s : ℚ) :
    (sortDesc l).filter (fun y => decide (y.2 = s))
      = l.filter (fun y => decide (y.2 = s)) := by
  induction l with
  | nil => rfl
  | cons x xs ih =>
    rw [sortDesc]
    by_cases hx : x.2 = s
    · rw [insertDesc_filter_of_eq x (sortDesc xs) s hx, ih,
        List.filter_cons_of_pos (by simp [hx])]
    · rw [insertDesc_filter_of_ne x (sortDesc xs) s hx, ih,
        List.filter_cons_of_neg (by simp [hx])]

/-- A list sorted descending by score with prescribed per-score subsequences
is unique: sortedness fixes the order of the score values, and the filter at
each score fixes the elements carrying it and their order. This pins down the
stable descending sort of any list. -/
theorem sorted_stable_unique :
    ∀ (l1 l2 : List (Str × ℚ)),
      l1.Sorted (fun a b => b.2 ≤ a.2) → l2.Sorted (fun a b => b.2 ≤ a.2) →
      (∀ s : ℚ, l1.filter (fun x => decide (x.2 = s))
          = l2.filter (fun x => decide (x.2 = s))) →
      l1 = l2 := by
  intro l1
  induction l1 with
  | nil =>
    intro l2 _ _ hf
    cases l2 with
    | nil => rfl
    | cons y u =>
      have h := hf y.2
      rw [List.filter_nil, List.filter_cons_of_pos (by simp)] at h
      cases h
  | cons x t ih =>
    intro l2 h1 h2 hf
    cases l2 with
    | nil =>
      have h := hf x.2
      rw [List.filter_nil, List.filter_cons_of_pos (by simp)] at h
      cases h
    | cons y u =>
      rw [List.sorted_cons] at h1 h2
      have hxy : x.2 = y.2 := by
        by_contra hne
        have hx := hf x.2
        rw [List.filter_cons_of_pos (by simp),
          List.filter_cons_of_neg
            (by simp only [decide_eq_true_eq]; exact fun h => hne h.symm)] at hx
        have hxu : x ∈ u.filter (fun z => decide (z.2 = x.2)) := by
          rw [← hx]
          exact List.mem_cons_self x _
        have hle1 : x.2 ≤ y.2 := h2.1 x (List.mem_filter.mp hxu).1
        have hy := hf y.2
        rw [List.filter_cons_of_neg
            (by simp only [decide_eq_true_eq]; exact hne)] at hy
        rw [List.filter_cons_of_pos (by simp)] at hy
        have hyt : y ∈ t.filter (fun z => decide (z.2 = y.2)) := by
          rw [hy]
          exact List.mem_cons_self y _
        have hle2 : y.2 ≤ x.2 := h1.1 y (List.mem_filter.mp hyt).1
        exact hne (le_antisymm hle1 hle2)
      have hx := hf x.2
      rw [List.filter_cons_of_pos (by simp),
        List.filter_cons_of_pos (by simp [hxy])] at hx
      injection hx with hhead htail
      subst hhead
      have htu : t = u := by
        apply ih u h1.2 h2.2
        intro s
        by_cases hs : s = x.2
        · subst hs
          exact htail
        · have h := hf s
          rw [List.filter_cons_of_neg
              (by simp only [decide_eq_true_eq]; exact fun h => hs h.symm),
            List.filter_cons_of_neg
              (by simp only [decide_eq_true_eq]; exact fun h => hs h.symm)] at h
          exact h
      rw [htu]

theorem find_matches_eq (q : Str) (cs : List Company) (n : Nat) (th : ℚ) :
    find_matches q cs n th
      = (sortDesc ((cs.map (fun c => (c.name, similarity_score q c.name))).filter
          (fun x => decide (th ≤ x.2)))).take n := rfl

theorem ratio_eq (a b : Str) :
    ratio a b
      = if a.length + b.length = 0 then 1
        else 2 * (matchTotal a b (a.length + 1) 0 a.length 0 b.length : ℚ)
              / ((a.length + b.length : Nat) : ℚ) := rfl

set_option maxRecDepth 400000 in
/-- The spec's high-similarity example: `"Deutsche Bank AG"` scores `1.0`
against `"Deutsche Bank"` (both normalize to `"deutsche bank"`). -/
theorem similarity_score_db_db :
    similarity_score "Deutsche Bank AG".toList "Deutsche Bank".toList = 1 := by
  have hn1 : normalize_name "Deutsche Bank AG".toList = "deutsche bank".toList := rfl
  have hm : matchTotal "deutsche bank".toList "deutsche bank".toList
      ("deutsche bank".toList.length + 1) 0 "deutsche bank".toList.length
      0 "deutsche bank".toList.length = 13 := rfl
  have hl : "deutsche bank".toList.length = 13 := rfl
  unfold similarity_score
  rw [hn1, show normalize_name "Deutsche Bank".toList = "deutsche bank".toList from rfl]
  rw [ratio_eq, hm, hl]
  norm_num

set_option maxRecDepth 400000 in
/-- `"Deutsche Bank AG"` scores `5/12` against `"Commerzbank"` (difflib
matching blocks of total size 5 over lengths 13 and 11). -/
theorem similarity_score_db_cb :
    similarity_score "Deutsche Bank AG".toList "Commerzbank".toList = 5 / 12 := by
  have hn1 : normalize_name "Deutsche Bank AG".toList = "deutsche bank".toList := rfl
  have hn2 : normalize_name "Commerzbank".toList = "commerzbank".toList := rfl
  have hm : matchTotal "deutsche bank".toList "commerzbank".toList
      ("deutsche bank".toList.length + 1) 0 "deutsche bank".toList.length
      0 "commerzbank".toList.length = 5 := rfl
  unfold similarity_score
  rw [hn1, hn2, ratio_eq, hm,
    show "deutsche bank".toList.length = 13 from rfl,
    show "commerzbank".toList.length = 11 from rfl]
  norm_num

/-- The spec's matcher end-to-end example: only `("Deutsche Bank", 1.0)` is
returned; Commerzbank's `5/12` falls below the `0.6` threshold. -/
theorem find_matches_spec_example :
    find_matches "Deutsche Bank AG".toList [companyDB, companyCB] 2 (6 / 10)
      = [("Deutsche Bank".toList, 1)] := by
  have h1 : similarity_score "Deutsche Bank AG".toList companyDB.name = 1 :=
    similarity_score_db_db
  have h2 : similarity_score "Deutsche Bank AG".toList companyCB.name = 5 / 12 :=
    similarity_score_db_cb
  rw [find_matches_eq]
  simp only [List.map_cons, List.map_nil, h1, h2]
  rw [List.filter_cons_of_pos (by simp only [decide_eq_true_eq]; norm_num),
    List.filter_cons_of_neg (by simp only [decide_eq_true_eq]; norm_num),
    List.filter_nil]
  rfl

/-- A truncation case computed concretely: with threshold `0` both candidates
clear the bar, and `top_n = 1` keeps only the higher-scoring Deutsche Bank. -/
theorem find_matches_truncation_example :
    find_matches "Deutsche Bank AG".toList [companyDB, companyCB] 1 0
      = [("Deutsche Bank".toList, 1)] := by
  have h1 : similarity_score "Deutsche Bank AG".toList companyDB.name = 1 :=
    similarity_score_db_db
  have h2 : similarity_score "Deutsche Bank AG".toList companyCB.name = 5 / 12 :=
    similarity_score_db_cb
  rw [find_matches_eq]
  simp only [List.map_cons, List.map_nil, h1, h2]
  rw [List.filter_cons_of_pos (by simp only [decide_eq_true_eq]; norm_num),
    List.filter_cons_of_pos (by simp only [decide_eq_true_eq]; norm_num),
    List.filter_nil, sortDesc, sortDesc, sortDesc, insertDesc, insertDesc,
    if_pos (by norm_num : ((("Commerzbank".toList, (5 : ℚ) / 12) : Str × ℚ)).2
      ≤ (("Deutsche Bank".toList, (1 : ℚ)) : Str × ℚ).2)]
  rfl

theorem pyToLower_idem (c : Char) : pyToLower (pyToLower c) = pyToLower c := by
  by_cases h : 65 ≤ c.toNat ∧ c.toNat ≤ 90
  · obtain ⟨h1, h2⟩ := h
    have hc : pyToLower c = Char.ofNat (c.toNat + 32) := by
      unfold pyToLower
      rw [if_pos ⟨h1, h2⟩]
    rw [hc]
    generalize c.toNat = n at h1 h2
    interval_cases n <;> decide
  · unfold pyToLower
    rw [if_neg h, if_neg h]

theorem map_eq_self_of_fixed (f : Char → Char) (s : Str)
    (h : ∀ c ∈ s, f c = c) : s.map f = s := by
  induction s with
  | nil => rfl
  | cons c s ih =>
    rw [List.map_cons, h c (List.mem_cons_self c s),
      ih (fun d hd => h d (List.mem_cons_of_mem c hd))]

theorem mem_of_mem_pyStrip (s : Str) (c : Char) (h : c ∈ pyStrip s) : c ∈ s := by
  unfold pyStrip rstrip lstrip at h
  rw [List.mem_reverse] at h
  have h2 := (List.dropWhile_sublist _).mem h
  rw [List.mem_reverse] at h2
  exact (List.dropWhile_sublist _).mem h2

theorem mem_of_mem_stripOneSuffix (s suf : Str) (c : Char)
    (h : c ∈ stripOneSuffix s suf) : c ∈ s := by
  unfold stripOneSuffix at h
  by_cases he : endsWith s suf
  · rw [if_pos he] at h
    exact List.mem_of_mem_take (mem_of_mem_pyStrip _ c h)
  · rw [if_neg he] at h
    exact h

theorem mem_of_mem_foldl_strip (L : List Str) (s : Str) (c : Char)
    (h : c ∈ L.foldl stripOneSuffix s) : c ∈ s := by
  induction L generalizing s with
  | nil => exact h
  | cons suf L ih =>
    rw [List.foldl_cons] at h
    exact mem_of_mem_stripOneSuffix s suf c (ih _ h)

theorem mem_word_pySplitAux (s : Str) (c : Char) :
    ∀ (acc w : Str), w ∈ pySplitAux s acc → c ∈ w → c ∈ s ∨ c ∈ acc := by
  induction s with
  | nil =>
    intro acc w hw hc
    rw [pySplitAux] at hw
    by_cases ha : acc.isEmpty
    · rw [if_pos ha] at hw
      cases hw
    · rw [if_neg ha] at hw
      rw [List.mem_singleton] at hw
      subst hw
      exact Or.inr (List.mem_reverse.mp hc)
  | cons d s ih =>
    intro acc w hw hc
    rw [pySplitAux] at hw
    by_cases hd : pyIsSpace d
    · rw [if_pos hd] at hw
      by_cases ha : acc.isEmpty
      · rw [if_pos ha] at hw
        rcases ih [] w hw hc with h | h
        · exact Or.inl (List.mem_cons_of_mem d h)
        · cases h
      · rw [if_neg ha] at hw
        rcases List.mem_cons.mp hw with rfl | hw2
        · exact Or.inr (List.mem_reverse.mp hc)
        · rcases ih [] w hw2 hc with h | h
          · exact Or.inl (List.mem_cons_of_mem d h)
          · cases h
    · rw [if_neg hd] at hw
      rcases ih (d :: acc) w hw hc with h | h
      · exact Or.inl (List.mem_cons_of_mem d h)
      · rcases List.mem_cons.mp h with rfl | h2
        · exact Or.inl (List.mem_cons_self c s)
        · exact Or.inr h2

theorem mem_joinSpace (ws : List Str) (c : Char) (h : c ∈ joinSpace ws) :
    (∃ w ∈ ws, c ∈ w) ∨ c = ' ' := by
  induction ws with
  | nil => cases h
  | cons w ws ih =>
    cases ws with
    | nil =>
      rw [joinSpace] at h
      exact Or.inl ⟨w, List.mem_cons_self w [], h⟩
    | cons w2 ws2 =>
      rw [joinSpace, List.mem_append] at h
      rcases h with h | h
      · exact Or.inl ⟨w, List.mem_cons_self _ _, h⟩
      · rcases List.mem_cons.mp h with rfl | h2
        · exact Or.inr rfl
        · rcases ih h2 with ⟨w3, hw3, hc3⟩ | h3
          · exact Or.inl ⟨w3, List.mem_cons_of_mem _ hw3, hc3⟩
          · exact Or.inr h3

theorem normalize_name_chars (x : Str) (c : Char) (h : c ∈ normalize_name x) :
    (∃ d, c = pyToLower d) ∨ c = ' ' := by
  unfold normalize_name collapseWs at h
  rcases mem_joinSpace _ c h with ⟨w, hw, hc⟩ | h2
  · rcases mem_word_pySplitAux _ c [] w hw hc with h3 | h3
    · have h4 := mem_of_mem_pyStrip _ c (mem_of_mem_foldl_strip suffixList _ c h3)
      rcases List.mem_map.mp h4 with ⟨d, _, rfl⟩
      exact Or.inl ⟨d, rfl⟩
    · cases h3
  · exact Or.inr h2

theorem lowerStr_normalize_name (x : Str) :
    lowerStr (normalize_name x) = normalize_name x := by
  apply map_eq_self_of_fixed
  intro c hc
  rcases normalize_name_chars x c hc with ⟨d, rfl⟩ | rfl
  · exact pyToLower_idem d
  · decide


theorem pySplitAux_words (s : Str) :
    ∀ (acc : Str), (∀ c ∈ acc, pyIsSpace c = false) →
      ∀ w ∈ pySplitAux s acc, w ≠ [] ∧ ∀ c ∈ w, pyIsSpace c = false := by
  induction s with
  | nil =>
    intro acc hacc w hw
    rw [pySplitAux] at hw
    by_cases ha : acc.isEmpty
    · rw [if_pos ha] at hw
      cases hw
    · rw [if_neg ha] at hw
      rw [List.mem_singleton] at hw
      subst hw
      refine ⟨fun hnil => ha ?_, fun c hc => hacc c (List.mem_reverse.mp hc)⟩
      rw [List.isEmpty_iff, ← List.reverse_eq_nil_iff]
      exact hnil
  | cons d s ih =>
    intro acc hacc w hw
    rw [pySplitAux] at hw
    by_cases hd : pyIsSpace d
    · rw [if_pos hd] at hw
      by_cases ha : acc.isEmpty
      · rw [if_pos ha] at hw
        exact ih [] (by simp) w hw
      · rw [if_neg ha] at hw
        rcases List.mem_cons.mp hw with rfl | hw2
        · refine ⟨fun hnil => ha ?_, fun c hc => hacc c (List.mem_reverse.mp hc)⟩
          rw [List.isEmpty_iff, ← List.reverse_eq_nil_iff]
          exact hnil
        · exact ih [] (by simp) w hw2
    · rw [if_neg hd] at hw
      refine ih (d :: acc) ?_ w hw
      intro c hc
      rcases List.mem_cons.mp hc with rfl | hc2
      · exact Bool.eq_false_iff.mpr hd
      · exact hacc c hc2

theorem pySplit_words (s : Str) :
    ∀ w ∈ pySplit s, w ≠ [] ∧ ∀ c ∈ w, pyIsSpace c = false :=
  pySplitAux_words s [] (by simp)

theorem pySplitAux_append_word :
    ∀ (w s acc : Str), (∀ c ∈ w, pyIsSpace c = false) →
      pySplitAux (w ++ s) acc = pySplitAux s (w.reverse ++ acc) := by
  intro w
  induction w with
  | nil => intro s acc _; simp
  | cons d w ih =>
    intro s acc hw
    have hd : pyIsSpace d = false := hw d (List.mem_cons_self d w)
    rw [List.cons_append, pySplitAux, if_neg (by rw [hd]; exact Bool.false_ne_true),
      ih s (d :: acc) (fun c hc => hw c (List.mem_cons_of_mem d hc))]
    congr 1
    rw [List.reverse_cons, List.append_assoc]
    rfl

theorem pySplit_joinSpace (ws : List Str)
    (h : ∀ w ∈ ws, w ≠ [] ∧ ∀ c ∈ w, pyIsSpace c = false) :
    pySplit (joinSpace ws) = ws := by
  induction ws with
  | nil => rfl
  | cons w ws ih =>
    obtain ⟨hwne, hwns⟩ := h w (List.mem_cons_self w ws)
    have hrevne : ¬ (w.reverse ++ ([] : Str)).isEmpty = true := by
      rw [List.append_nil, List.isEmpty_iff, List.reverse_eq_nil_iff]
      exact hwne
    cases ws with
    | nil =>
      unfold pySplit
      rw [joinSpace, show w = w ++ ([] : Str) from (List.append_nil w).symm,
        pySplitAux_append_word w [] [] hwns, pySplitAux, if_neg hrevne,
        List.append_nil, List.append_nil, List.reverse_reverse]
    | cons w2 ws2 =>
      unfold pySplit
      rw [joinSpace, pySplitAux_append_word w _ [] hwns, pySplitAux,
        if_pos (by decide), if_neg hrevne, List.append_nil,
        List.reverse_reverse]
      congr 1
      exact ih (fun v hv => h v (List.mem_cons_of_mem w hv))

theorem lstrip_joinSpace (ws : List Str)
    (h : ∀ w ∈ ws, w ≠ [] ∧ ∀ c ∈ w, pyIsSpace c = false) :
    lstrip (joinSpace ws) = joinSpace ws := by
  cases ws with
  | nil => rfl
  | cons w ws =>
    obtain ⟨hwne, hwns⟩ := h w (List.mem_cons_self w ws)
    obtain ⟨d, t, rfl⟩ := List.exists_cons_of_ne_nil hwne
    have hd : pyIsSpace d = false := hwns d (List.mem_cons_self d t)
    cases ws with
    | nil =>
      unfold lstrip
      rw [joinSpace, List.dropWhile_cons, if_neg (by rw [hd]; exact Bool.false_ne_true)]
    | cons w2 ws2 =>
      unfold lstrip
      rw [joinSpace, List.cons_append, List.dropWhile_cons,
        if_neg (by rw [hd]; exact Bool.false_ne_true)]

theorem reverse_joinSpace_head (ws : List Str)
    (h : ∀ w ∈ ws, w ≠ [] ∧ ∀ c ∈ w, pyIsSpace c = false) (hne : ws ≠ []) :
    ∃ d t, (joinSpace ws).reverse = d :: t ∧ pyIsSpace d = false := by
  induction ws with
  | nil => exact absurd rfl hne
  | cons w ws ih =>
    obtain ⟨hwne, hwns⟩ := h w (List.mem_cons_self w ws)
    cases ws with
    | nil =>
      obtain ⟨d, t, hdt⟩ := List.exists_cons_of_ne_nil
        (fun hn => hwne (List.reverse_eq_nil_iff.mp hn) : w.reverse ≠ [])
      refine ⟨d, t, by rw [joinSpace]; exact hdt, ?_⟩
      have hdw : d ∈ w := by
        rw [← List.mem_reverse, hdt]
        exact List.mem_cons_self d t
      exact hwns d hdw
    | cons w2 ws2 =>
      obtain ⟨d, t, hdt, hd⟩ := ih
        (fun v hv => h v (List.mem_cons_of_mem w hv)) (by simp)
      refine ⟨d, t ++ ' ' :: w.reverse, ?_, hd⟩
      rw [joinSpace, List.reverse_append, List.reverse_cons, hdt]
      simp

theorem rstrip_joinSpace (ws : List Str)
    (h : ∀ w ∈ ws, w ≠ [] ∧ ∀ c ∈ w, pyIsSpace c = false) :
    rstrip (joinSpace ws) = joinSpace ws := by
  by_cases hne : ws = []
  · subst hne
    rfl
  · obtain ⟨d, t, hdt, hd⟩ := reverse_joinSpace_head ws h hne
    unfold rstrip
    rw [hdt, List.dropWhile_cons, if_neg (by rw [hd]; exact Bool.false_ne_true),
      ← hdt, List.reverse_reverse]

theorem pyStrip_collapseWs (s : Str) : pyStrip (collapseWs s) = collapseWs s := by
  unfold pyStrip collapseWs
  rw [lstrip_joinSpace (pySplit s) (pySplit_words s),
    rstrip_joinSpace (pySplit s) (pySplit_words s)]

theorem collapseWs_idem (s : Str) : collapseWs (collapseWs s) = collapseWs s := by
  conv_lhs => rw [collapseWs]
  unfold pySplit
  rw [show pySplitAux (collapseWs s) [] = pySplit (collapseWs s) from rfl]
  unfold collapseWs
  rw [pySplit_joinSpace (pySplit s) (pySplit_words s)]

theorem foldl_stripOneSuffix_no_op (L : List Str) (s : Str)
    (h : ∀ suf ∈ L, endsWith s suf = false) : L.foldl stripOneSuffix s = s := by
  induction L with
  | nil => rfl
  | cons suf L ih =>
    rw [List.foldl_cons,
      show stripOneSuffix s suf = s from by
        unfold stripOneSuffix
        rw [if_neg (by rw [h suf (List.mem_cons_self suf L)]; exact Bool.false_ne_true)]]
    exact ih (fun v hv => h v (List.mem_cons_of_mem suf hv))


/-! ## Claims -/

/-- The merge expression written in the unreachable success branch keys on
raw names: even there, the spec's end-to-end pair — job `"Acme GmbH"` and
company `"ACME"`, whose normalized names are equal — would stay unmatched. -/
theorem mergeLeft_ignores_normalization :
    normalize_name job1.company_name = normalize_name companyACME.name
      ∧ mergeLeft [job1] [companyACME] = [ConsolidatedRow.mk job1 none] :=
  ⟨rfl, rfl⟩

/-- Semantics of the merge expression of the unreachable success branch: a
joined row `(j, some c)` appears iff `c.name == j.company_name` verbatim. -/
theorem mergeLeft_mem_iff (js : List Job) (cs : List Company)
    (j : Job) (c : Company) :
    ConsolidatedRow.mk j (some c) ∈ mergeLeft js cs
      ↔ j ∈ js ∧ c ∈ cs ∧ c.name = j.company_name := by
  induction js with
  | nil => simp [mergeLeft]
  | cons j2 js ih =>
    rw [mergeLeft, List.mem_append, ih, mem_joinRow]
    constructor
    · rintro (⟨rfl, hc, hn⟩ | ⟨hj, hc, hn⟩)
      · exact ⟨List.mem_cons_self _ _, hc, hn⟩
      · exact ⟨List.mem_cons_of_mem _ hj, hc, hn⟩
    · rintro ⟨hj, hc, hn⟩
      rcases List.mem_cons.mp hj with rfl | hj2
      · exact Or.inl ⟨rfl, hc, hn⟩
      · exact Or.inr ⟨hj2, hc, hn⟩

/-- The merge expression of the unreachable success branch would be total over
jobs when company names are pairwise distinct, retaining unmatched jobs with
null rating fields; the real `get_jobs_dataframe` never gets that far. -/
theorem mergeLeft_total_when_names_distinct (js : List Job) (cs : List Company)
    (hnd : (cs.map Company.name).Nodup) :
    (mergeLeft (deduplicate_jobs js) cs).length = (deduplicate_jobs js).length
      ∧ ∀ j ∈ deduplicate_jobs js,
          cs.filter (fun c => decide (c.name = j.company_name)) = [] →
          ConsolidatedRow.mk j none ∈ mergeLeft (deduplicate_jobs js) cs :=
  ⟨length_mergeLeft _ cs hnd,
   fun j hj hfil => mem_mergeLeft_unmatched (deduplicate_jobs js) cs j hj hfil⟩

/-- C1: the join stage never executes. `get_jobs_dataframe` selects the
columns `kununu_review_count` / `glassdoor_review_count` from `companies_df`,
which `asdict(Company)` can never supply, so pandas raises `KeyError` for
every non-empty deduplicated job list — here at the spec's own example input,
whose names the claim says the join resolves by normalized equality. -/
theorem c1_join_raises_keyerror :
    normalize_name job1.company_name = normalize_name companyACME.name
      ∧ "kununu_review_count" ∈ selectedCompanyColumns
      ∧ "kununu_review_count" ∉ companyColumns
      ∧ get_jobs_dataframe [job1] [companyACME] [] [] 0 true
          = Except.error
              "KeyError: ['kununu_review_count', 'glassdoor_review_count'] not in index" :=
  ⟨rfl, by decide, by decide, rfl⟩

/-- C2: the join is not total over jobs, because it never runs. With one
deduplicated job the code produces no consolidated rows at all — the column
selection raises `KeyError` — while with no jobs it returns an empty frame
before reaching the selection (the only path that terminates normally). -/
theorem c2_join_raises_keyerror :
    (deduplicate_jobs [jobX]).length = 1
      ∧ get_jobs_dataframe [jobX] [companyXa, companyXb] [] [] 0 true
          = Except.error
              "KeyError: ['kununu_review_count', 'glassdoor_review_count'] not in index"
      ∧ get_jobs_dataframe [] [companyXa, companyXb] [] [] 0 true
          = Except.ok [] :=
  ⟨rfl, rfl, rfl⟩

/-- C3, counterexample: `"Acme"` and `"Acme GmbH"` have the same normalized
name, yet `deduplicate_companies` retains both — its seen-set is keyed by
`company.name.lower()`, which does not strip legal suffixes. -/
theorem c3_counterexample :
    normalize_name companyAcmeGmbH.name = normalize_name companyAcme.name
      ∧ deduplicate_companies [companyAcme, companyAcmeGmbH]
          = [companyAcme, companyAcmeGmbH] :=
  ⟨rfl, rfl⟩

/-- C3, amended: company deduplication is keyed by the lowercased display
name `record.name.lower()` (not the normalized name): the first occurrence of
each lowercased key is retained, every later record with the same key is
dropped regardless of other field differences, and input order is
preserved. -/
theorem c3_dedupe_keyed_by_lowercase_name (cs : List Company) :
    deduplicate_companies cs
      = keepFirstByKey (fun c => lowerStr c.name) cs := by
  unfold deduplicate_companies
  rw [dedupByKeyAux_eq_keepFirst]
  congr 1
  simp

set_option maxRecDepth 400000 in
/-- C4, counterexample: normalization is not idempotent. The suffix loop runs
through the table once in order, so `"x gmbh group"` loses only `" group"`
(the last table entry) on the first pass, giving `"x gmbh"`, and a second pass
strips `" gmbh"` as well, giving `"x"`. -/
theorem c4_counterexample :
    ¬ normalize_name (normalize_name "x gmbh group".toList)
        = normalize_name "x gmbh group".toList := by decide

/-- C4, amended: normalization is idempotent on every input whose normalized
form does not itself end in one of the listed legal suffixes; when it does
(e.g. `normalize("x gmbh group") = "x gmbh"`), a second application strips
further. -/
theorem c4_normalize_idempotent_when_no_trailing_suffix (x : Str)
    (h : ∀ suf ∈ suffixList, endsWith (normalize_name x) suf = false) :
    normalize_name (normalize_name x) = normalize_name x := by
  conv_lhs => rw [normalize_name]
  rw [lowerStr_normalize_name x,
    show pyStrip (normalize_name x) = normalize_name x from pyStrip_collapseWs _,
    show stripSuffixes (normalize_name x) = normalize_name x from
      foldl_stripOneSuffix_no_op suffixList _ h,
    show collapseWs (normalize_name x) = normalize_name x from collapseWs_idem _]

set_option maxRecDepth 400000 in
/-- C4 witness for `c4_normalize_idempotent_when_no_trailing_suffix`. -/
theorem c4_witness :
    (∀ suf ∈ suffixList, endsWith (normalize_name "Acme GmbH".toList) suf = false)
      ∧ normalize_name (normalize_name "Acme GmbH".toList)
          = normalize_name "Acme GmbH".toList :=
  ⟨by decide, c4_normalize_idempotent_when_no_trailing_suffix _ (by decide)⟩


/-- C5, counterexample: two empty inputs do not score `0.0`; there is no
empty-key guard in `similarity_score`. -/
theorem c5_counterexample : ¬ similarity_score [] [] = 0 := by decide

/-- C5, amended: two inputs that both normalize to the empty key score `1.0`
(difflib's `_calculate_ratio` returns `1.0` when both sequences are empty),
the degenerate match the spec wanted to guard against. -/
theorem c5_empty_keys_score_one : similarity_score [] [] = 1 := by decide

/-- C6: for `m > 0` the rating threshold retains a row iff its rating column
is null (unmatched job) or at least `m` — a row with unset rating is never
dropped — and for `m == 0` the stage returns the row set unchanged. -/
theorem c6_rating_threshold (m : ℚ) (rows : List ConsolidatedRow)
    (hm : 0 < m) :
    (∀ r, r ∈ ratingThreshold m rows ↔
        r ∈ rows ∧ (rowRating r = none ∨ ∃ q, rowRating r = some q ∧ m ≤ q))
      ∧ ratingThreshold 0 rows = rows := by
  constructor
  · intro r
    rw [ratingThreshold, if_pos hm, List.mem_filter]
    cases h : rowRating r with
    | none => simp [h]
    | some q => simp [h]
  · unfold ratingThreshold
    simp

/-- C6 witness for `c6_rating_threshold`. -/
theorem c6_witness :
    ConsolidatedRow.mk job1 none ∈ ratingThreshold 1 [ConsolidatedRow.mk job1 none] := by
  have h := (c6_rating_threshold 1 [ConsolidatedRow.mk job1 none]
    (by norm_num)).1 (ConsolidatedRow.mk job1 none)
  exact h.mpr ⟨List.mem_singleton.mpr rfl, Or.inl rfl⟩

/-- C7: `find_matches` keeps exactly the candidates scoring at least the
threshold (`scored` is that list, in candidate order): the result is sorted
descending by score, has length `min top_n |scored|`, is a permutation of
`scored` when it is not truncated, preserves the original relative order of
any fixed score value (stable ties), is empty when nothing clears the
threshold, and two runs on identical input are identical. The truncated case
is settled in full: for every list `l` that is sorted descending and has the
same per-score subsequences as `scored` — by `sorted_stable_unique` there is
exactly one such `l`, the stable descending arrangement of `scored`, and the
last conjunct provides it — the result is precisely `l.take top_n`. -/
theorem c7_find_matches (q : Str) (cs : List Company) (n : Nat) (th : ℚ)
    (scored : List (Str × ℚ))
    (hs : scored
      = (cs.map (fun c => (c.name, similarity_score q c.name))).filter
          (fun x => decide (th ≤ x.2))) :
    List.Sorted (fun a b : Str × ℚ => b.2 ≤ a.2) (find_matches q cs n th)
      ∧ (find_matches q cs n th).length = min n scored.length
      ∧ (scored.length ≤ n → (find_matches q cs n th).Perm scored)
      ∧ (scored.length ≤ n → ∀ s : ℚ,
          (find_matches q cs n th).filter (fun x => decide (x.2 = s))
            = scored.filter (fun x => decide (x.2 = s)))
      ∧ (scored = [] → find_matches q cs n th = [])
      ∧ find_matches q cs n th = find_matches q cs n th
      ∧ (∀ l : List (Str × ℚ), l.Sorted (fun a b => b.2 ≤ a.2) →
          (∀ s : ℚ, l.filter (fun x => decide (x.2 = s))
              = scored.filter (fun x => decide (x.2 = s))) →
          find_matches q cs n th = l.take n)
      ∧ (∃ l : List (Str × ℚ), l.Sorted (fun a b => b.2 ≤ a.2)
          ∧ l.Perm scored
          ∧ ∀ s : ℚ, l.filter (fun x => decide (x.2 = s))
              = scored.filter (fun x => decide (x.2 = s))) := by
  have hfm : find_matches q cs n th = (sortDesc scored).take n := by
    rw [find_matches_eq, hs]
  have hlen : (sortDesc scored).length = scored.length :=
    (sortDesc_perm scored).length_eq
  refine ⟨?_, ?_, ?_, ?_, ?_, rfl, ?_, ?_⟩
  · rw [hfm]
    exact (sortDesc_sorted scored).sublist (List.take_sublist n _)
  · rw [hfm, List.length_take, hlen]
  · intro hle
    rw [hfm, List.take_of_length_le (by rw [hlen]; exact hle)]
    exact sortDesc_perm scored
  · intro hle s
    rw [hfm, List.take_of_length_le (by rw [hlen]; exact hle)]
    exact sortDesc_stable scored s
  · intro hnil
    rw [hfm, hnil]
    simp [sortDesc]
  · intro l hl hfl
    rw [hfm,
      sorted_stable_unique (sortDesc scored) l (sortDesc_sorted scored) hl
        (fun s => (sortDesc_stable scored s).trans (hfl s).symm)]
  · exact ⟨sortDesc scored, sortDesc_sorted scored, sortDesc_perm scored,
      sortDesc_stable scored⟩

/-- C7 witness for `c7_find_matches`: with no candidate clearing the
threshold the matcher returns the empty sequence of the right length, and the
truncation conjunct applies with the empty arrangement. -/
theorem c7_witness :
    find_matches "Deutsche Bank AG".toList [] 3 (6 / 10) = []
      ∧ (find_matches "Deutsche Bank AG".toList [] 3 (6 / 10)).length = min 3 0
      ∧ find_matches "Deutsche Bank AG".toList [] 3 (6 / 10)
          = List.take 3 ([] : List (Str × ℚ)) :=
  ⟨((c7_find_matches "Deutsche Bank AG".toList [] 3 (6 / 10) [] rfl).2.2.2.2.1)
      rfl,
   (c7_find_matches "Deutsche Bank AG".toList [] 3 (6 / 10) [] rfl).2.1,
   (c7_find_matches "Deutsche Bank AG".toList [] 3 (6 / 10) [] rfl).2.2.2.2.2.2.1
      [] (by simp) (fun s => rfl)⟩

/-- C8: a blacklist pass is idempotent, an empty blacklist returns the input
unchanged, and the company-name pass and the job-id pass commute. -/
theorem c8_blacklist_algebra (xs : List ConsolidatedRow)
    (bl bc bj : List Str) (key : ConsolidatedRow → Str) :
    blacklistPass key bl (blacklistPass key bl xs) = blacklistPass key bl xs
      ∧ blacklistPass key [] xs = xs
      ∧ blacklistPass (fun r => r.job.job_id) bj
          (blacklistPass (fun r => r.job.company_name) bc xs)
        = blacklistPass (fun r => r.job.company_name) bc
            (blacklistPass (fun r => r.job.job_id) bj xs) := by
  refine ⟨?_, ?_, ?_⟩
  · simp only [blacklistPass_filter, List.filter_filter]
    apply List.filter_congr
    intro x _
    by_cases h : key x ∈ bl <;> simp [h]
  · rw [blacklistPass_filter]
    simp
  · simp only [blacklistPass_filter, List.filter_filter]
    apply List.filter_congr
    intro x _
    rw [Bool.and_comm]

/-- C9: the code conflates an absent rating with an explicit zero rating: the
`Company` dataclass declares `kununu_rating: float = 0`, so a record
constructed (or read, via `Company(**json.loads(line))`) without a rating
field equals one built with an explicit rating of `0` — there is no distinct
"unset / not yet scraped" state (`main.py` tests `c.kununu_rating is None`,
which this default can never satisfy). -/
theorem c9_default_rating_is_explicit_zero :
    ({ name := "X".toList } : Company).kununu_rating = 0
      ∧ ({ name := "X".toList } : Company)
          = { name := "X".toList, kununu_rating := 0 } :=
  ⟨rfl, rfl⟩

/-- C10: the accessors load lazily on emptiness, not exactly once: a call
consults the port's `get()` exactly when the cached list is empty, so a port
returning `[]` is re-consulted on every call (`n` calls perform `n` loads),
while a non-empty first load is served from the cache on all later calls
without consulting the port again. -/
theorem c10_lazy_load_on_emptiness {α : Type} (port : Nat → List α) (n : Nat) :
    ((∀ k, port k = []) →
        lazyIter port (LazyCache.mk [] 0) n = LazyCache.mk [] n)
      ∧ (∀ s : LazyCache α, s.cache.isEmpty →
          lazyAccess port s
            = (port s.calls, LazyCache.mk (port s.calls) (s.calls + 1)))
      ∧ (∀ s : LazyCache α, ¬ s.cache.isEmpty = true →
          lazyAccess port s = (s.cache, s))
      ∧ (port 0 ≠ [] → 1 ≤ n →
          lazyIter port (LazyCache.mk [] 0) n = LazyCache.mk (port 0) 1
            ∧ (lazyAccess port (lazyIter port (LazyCache.mk [] 0) n)).1
                = port 0) := by
  have hstep_empty : ∀ s : LazyCache α, s.cache.isEmpty →
      lazyAccess port s
        = (port s.calls, LazyCache.mk (port s.calls) (s.calls + 1)) := by
    intro s hs
    unfold lazyAccess
    rw [if_pos hs]
  have hstep_full : ∀ s : LazyCache α, ¬ s.cache.isEmpty = true →
      lazyAccess port s = (s.cache, s) := by
    intro s hs
    unfold lazyAccess
    rw [if_neg hs]
  refine ⟨?_, hstep_empty, hstep_full, ?_⟩
  · intro hport
    induction n with
    | zero => rfl
    | succ n ih =>
      simp only [lazyIter]
      rw [ih, hstep_empty (LazyCache.mk [] n) (by simp), hport]
  · intro hne hn
    have hiter : ∀ m, 1 ≤ m →
        lazyIter port (LazyCache.mk [] 0) m = LazyCache.mk (port 0) 1 := by
      intro m hm
      induction m with
      | zero => cases hm
      | succ m ih =>
        by_cases hm0 : m = 0
        · subst hm0
          simp only [lazyIter]
          rw [hstep_empty (LazyCache.mk [] 0) (by simp)]
        · have hm1 : 1 ≤ m := Nat.one_le_iff_ne_zero.mpr hm0
          simp only [lazyIter]
          rw [ih hm1,
            hstep_full (LazyCache.mk (port 0) 1) (by simpa using hne)]
    refine ⟨hiter n hn, ?_⟩
    rw [hiter n hn, hstep_full (LazyCache.mk (port 0) 1) (by simpa using hne)]

/-- C10 witness for `c10_lazy_load_on_emptiness`: an always-empty port is
consulted on each of three successive calls, while a port with one company
is consulted once and cached. -/
theorem c10_witness :
    lazyIter (fun _ => ([] : List Company)) (LazyCache.mk [] 0) 3
        = LazyCache.mk [] 3
      ∧ lazyIter (fun _ => [companyACME]) (LazyCache.mk [] 0) 3
          = LazyCache.mk [companyACME] 1 :=
  ⟨(c10_lazy_load_on_emptiness (fun _ => ([] : List Company)) 3).1
      (fun _ => rfl),
   ((c10_lazy_load_on_emptiness (fun _ => [companyACME]) 3).2.2.2
      (by simp) (by norm_num)).1⟩

end CompanyRating
